import Mathlib

/-!
Verification of the fester manifest-assembly pipeline (src/main.go).

The Go source is shallowly embedded: strings are `String` (lists of
characters), the three docker subprocess operations (pull / run / inspect)
are an abstract, stateful `Engine` record, and the main loop of `main`
becomes the recursive function `assembleGo`, which additionally records the
exact sequence of engine operations it performs so that fail-fast and
"engine untouched" properties can be stated directly.
-/

namespace Fester

/-- Model of Go `unicode.IsSpace`: '\t', '\n', '\v', '\f', '\r', ' ',
U+0085, U+00A0 and the Unicode White_Space code points. -/
def goIsSpace (c : Char) : Bool :=
  let n := c.toNat
  n == 9 || n == 10 || n == 11 || n == 12 || n == 13 || n == 32 ||
  n == 0x85 || n == 0xA0 || n == 0x1680 ||
  (decide (0x2000 ≤ n) && decide (n ≤ 0x200A)) ||
  n == 0x2028 || n == 0x2029 || n == 0x202F || n == 0x205F || n == 0x3000

/-- List-level model of Go `strings.TrimSpace`: drop leading and trailing
whitespace code points. -/
def trimSpaceL (l : List Char) : List Char :=
  ((l.dropWhile goIsSpace).reverse.dropWhile goIsSpace).reverse

/-- Model of Go `strings.TrimSpace`. -/
def trimSpace (s : String) : String :=
  String.mk (trimSpaceL s.data)

/-- Model of Go `strings.TrimLeft s cutset`: remove every leading code point
of `s` that occurs anywhere in `cutset` (a character set, not a pattern). -/
def goTrimLeft (s cutset : String) : String :=
  String.mk (s.data.dropWhile (fun c => cutset.data.contains c))

/-- Model of Go `strings.HasPrefix pre s`. -/
def strHasPre (pre s : String) : Bool :=
  List.isPrefixOf pre.data s.data

/-- Model of the Go struct `VersionInfo` (src/main.go lines 29-34). -/
structure VersionInfo where
  AppVersion : String
  GitRef : String
  BuiltBy : String
  ImageID : String
deriving DecidableEq, Repr

/-- One iteration of the scanning loop of Go `NewVersionInfo`
(src/main.go lines 40-50): the accumulator holds the three mutable
variables `appver`, `gitref`, `builtby`. -/
def parseStep (acc : String × String × String) (p : String) : String × String × String :=
  let appver := if strHasPre "App-Version: " p then trimSpace (goTrimLeft p "App-Version: ") else acc.1
  let gitref := if strHasPre "Git-Ref: " p then trimSpace (goTrimLeft p "Git-Ref: ") else acc.2.1
  let builtby := if strHasPre "Built-By: " p then trimSpace (goTrimLeft p "Built-By: ") else acc.2.2
  (appver, gitref, builtby)

/-- Model of Go `NewVersionInfo` (src/main.go lines 38-58). -/
def NewVersionInfo (parsefrom : List String) (imageID : String) : VersionInfo :=
  let r := parsefrom.foldl parseStep ("", "", "")
  { AppVersion := r.1, GitRef := r.2.1, BuiltBy := r.2.2, ImageID := imageID }

/-- Model of the Go struct `ImageSpecifier` (src/main.go lines 61-65). -/
structure ImageSpecifier where
  Registry : String
  Image : String
  Tag : String
deriving DecidableEq, Repr

/-- Model of Go `New` (src/main.go lines 68-75). -/
def New (reg img tag : String) : ImageSpecifier :=
  { Registry := reg, Image := img, Tag := tag }

/-- Interpreter for the `%s` verbs of Go `fmt.Sprintf`, enough for the
format string used by `ImageSpecifier.String`; a `%s` verb with no
remaining argument renders as Go does. -/
def sprintfS : List Char → List String → List Char
  | [], _ => []
  | '%' :: 's' :: rest, a :: args => a.data ++ sprintfS rest args
  | '%' :: 's' :: rest, [] => "%!s(MISSING)".data ++ sprintfS rest []
  | c :: rest, args => c :: sprintfS rest args

/-- Model of the Go method `ImageSpecifier.String` (src/main.go lines 77-79):
`fmt.Sprintf` applied to the format `%s/%s:%s`. -/
def ImageSpecifier.str (i : ImageSpecifier) : String :=
  String.mk (sprintfS "%s/%s:%s".data [i.Registry, i.Image, i.Tag])

/-- Model of Go `dropCR` inside `bufio.ScanLines`: remove one trailing
carriage return, if present. -/
def dropCR (l : List Char) : List Char :=
  match l.getLast? with
  | some '\r' => l.dropLast
  | _ => l

/-- Tokenisation performed by `bufio.Scanner` with `bufio.ScanLines`:
`cur` is the current line accumulated in reverse; a newline emits the
current token (possibly empty), and a non-empty final token without a
trailing newline is also emitted. -/
def scanLinesAux : List Char → List Char → List (List Char)
  | [], cur => if cur.isEmpty then [] else [dropCR cur.reverse]
  | c :: rest, cur =>
    if c = '\n' then dropCR cur.reverse :: scanLinesAux rest []
    else scanLinesAux rest (c :: cur)

/-- Model of Go `ReadLines` (src/main.go lines 94-103). -/
def ReadLines (content : String) : List String :=
  (scanLinesAux content.data []).map String.mk

/-- One docker subprocess invocation performed by the program, recorded with
the canonical image string passed to docker. -/
inductive EngineOp where
  | pull (ref : String)
  | run (ref : String)
  | inspect (ref : String)
deriving DecidableEq, Repr

/-- Abstract container engine: the three docker capabilities the program
exec's (`docker pull`, `docker run --rm <ref> --version`, `docker inspect`),
with an explicit engine state `σ` threaded through the calls and errors in
`E`, mirroring the `error` returns of `exec.Cmd.Run`. -/
structure Engine (σ E : Type) where
  pull : σ → String → σ × Except E Unit
  run : σ → String → σ × Except E String
  inspect : σ → String → σ × Except E String

variable {σ E : Type}

/-- Processing of a single image name by the body of the loop in `main`
(src/main.go lines 212-224): build the specifier, `Pull`, then `Version`
(which runs the image and then `ImageID`, the latter trimming the inspect
output, src/main.go lines 106-153).  Returns the docker invocations
performed, the final engine state, and either the first error or the
extracted `VersionInfo`. -/
def processOne (eng : Engine σ E) (registry tag image : String) (s : σ) :
    List EngineOp × σ × Except E VersionInfo :=
  let k := (New registry image tag).str
  match eng.pull s k with
  | (s1, Except.error e) => ([EngineOp.pull k], s1, Except.error e)
  | (s1, Except.ok _) =>
    match eng.run s1 k with
    | (s2, Except.error e) => ([EngineOp.pull k, EngineOp.run k], s2, Except.error e)
    | (s2, Except.ok out) =>
      match eng.inspect s2 k with
      | (s3, Except.error e) =>
          ([EngineOp.pull k, EngineOp.run k, EngineOp.inspect k], s3, Except.error e)
      | (s3, Except.ok rawId) =>
          ([EngineOp.pull k, EngineOp.run k, EngineOp.inspect k], s3,
            Except.ok (NewVersionInfo (ReadLines out) (trimSpace rawId)))

/-- The Go map update `imageVersions[k] = append(imageVersions[k], v)`
(src/main.go line 223), on maps represented as total functions defaulting
to the empty sequence. -/
def mapAppend (m : String → List VersionInfo) (k : String) (v : VersionInfo) :
    String → List VersionInfo :=
  fun x => if x = k then m x ++ [v] else m x

/-- The aggregation loop of `main` (src/main.go lines 211-224): process the
image names in order, fail-fast on the first error, and append each
extracted record under its canonical image string.  The returned list is
the exact sequence of docker invocations performed. -/
def assembleGo (eng : Engine σ E) (registry tag : String) :
    List String → σ → (String → List VersionInfo) →
    List EngineOp × σ × Except E (String → List VersionInfo)
  | [], s, m => ([], s, Except.ok m)
  | image :: rest, s, m =>
    match processOne eng registry tag image s with
    | (tr1, s1, Except.error e) => (tr1, s1, Except.error e)
    | (tr1, s1, Except.ok v) =>
      let res := assembleGo eng registry tag rest s1 (mapAppend m (New registry image tag).str v)
      (tr1 ++ res.1, res.2.1, res.2.2)

/-- Reference list of the (canonical string, record) pairs produced by the
run, in processing order; it stops at the first failing image. -/
def flatRecords (eng : Engine σ E) (registry tag : String) :
    List String → σ → List (String × VersionInfo)
  | [], _ => []
  | image :: rest, s =>
    match processOne eng registry tag image s with
    | (_, _, Except.error _) => []
    | (_, s1, Except.ok v) =>
        ((New registry image tag).str, v) :: flatRecords eng registry tag rest s1

/-- Decides whether every pull, run and inspect call of the run succeeds
when the images are processed in order from state `s`. -/
def allCallsOk (eng : Engine σ E) (registry tag : String) :
    List String → σ → Bool
  | [], _ => true
  | image :: rest, s =>
    match processOne eng registry tag image s with
    | (_, _, Except.error _) => false
    | (_, s1, Except.ok _) => allCallsOk eng registry tag rest s1

/-- Model of the Go struct `OutputMap` (src/main.go lines 185-188). -/
structure OutputMap where
  DropFiles : List (String × String)
  DockerImages : String → List VersionInfo

/-- Outcome of one run of `main`: `fatal` models `log.Fatal`/`log.Fatalf`
(process termination without producing the manifest), `ok` carries the
document handed to `json.MarshalIndent` and written to the output file. -/
inductive MainOutcome where
  | fatal
  | ok (doc : OutputMap)

/-- Model of Go `main` (src/main.go lines 190-237): the four required-flag
checks in source order, then `ReadImages`, then `ReadFilesList` (both file
reads abstracted as `Except` parameters), then the aggregation loop, then
the output document.  The first component is the sequence of docker
invocations performed. -/
def runMain (imgsF regF tagF outfF : String)
    (readImagesRes : Except String (List String))
    (readFilesRes : Except String (List (String × String)))
    (eng : Engine σ E) (s0 : σ) : List EngineOp × MainOutcome :=
  if imgsF = "" then ([], MainOutcome.fatal)
  else if regF = "" then ([], MainOutcome.fatal)
  else if tagF = "" then ([], MainOutcome.fatal)
  else if outfF = "" then ([], MainOutcome.fatal)
  else
    match readImagesRes with
    | Except.error _ => ([], MainOutcome.fatal)
    | Except.ok images =>
      match readFilesRes with
      | Except.error _ => ([], MainOutcome.fatal)
      | Except.ok dropFiles =>
        match assembleGo eng regF tagF images s0 (fun _ => []) with
        | (tr, _, Except.error _) => (tr, MainOutcome.fatal)
        | (tr, _, Except.ok m) =>
            (tr, MainOutcome.ok { DropFiles := dropFiles, DockerImages := m })

/-- Deterministic test engine on which every call succeeds; the inspect
output carries surrounding whitespace to exercise the trimming. -/
def okEngine : Engine Unit String where
  pull := fun _ _ => ((), Except.ok ())
  run := fun _ _ => ((), Except.ok "App-Version: 0.1\n")
  inspect := fun _ _ => ((), Except.ok " sha:9 ")

/-- Test engine whose pull of the canonical string of image name `b`
(registry `r`, tag `t`) fails. -/
def failEngine : Engine Unit String where
  pull := fun _ k => ((), if k = (New "r" "b" "t").str then Except.error "pull failed" else Except.ok ())
  run := fun _ _ => ((), Except.ok "App-Version: 0.1\n")
  inspect := fun _ _ => ((), Except.ok "sha:1")

/-- Record extracted on each successful image of `okEngine`. -/
def vOkW : VersionInfo := NewVersionInfo (ReadLines "App-Version: 0.1\n") (trimSpace " sha:9 ")

/-- Record extracted on each successful image of `failEngine`. -/
def vFailW : VersionInfo := NewVersionInfo (ReadLines "App-Version: 0.1\n") (trimSpace "sha:1")

/-- Docker invocations for one successful image named `a` at registry `r`,
tag `t`. -/
def trAW : List EngineOp :=
  [EngineOp.pull (New "r" "a" "t").str, EngineOp.run (New "r" "a" "t").str,
   EngineOp.inspect (New "r" "a" "t").str]

/-- Aggregate after `failEngine` has processed the single image `a`. -/
def mAW : String → List VersionInfo := mapAppend (fun _ => []) (New "r" "a" "t").str vFailW

/-- Aggregate after `okEngine` has processed the image list read from the
content `"a\n\nb"` (names `a`, the empty name, `b`). -/
def mC9W : String → List VersionInfo :=
  mapAppend (mapAppend (mapAppend (fun _ => []) (New "r" "a" "t").str vOkW)
    (New "r" "" "t").str vOkW) (New "r" "b" "t").str vOkW

/-- Docker invocations of `okEngine` on the image list read from the
content `"a\n\nb"`. -/
def trC9W : List EngineOp :=
  [EngineOp.pull (New "r" "a" "t").str, EngineOp.run (New "r" "a" "t").str,
   EngineOp.inspect (New "r" "a" "t").str,
   EngineOp.pull (New "r" "" "t").str, EngineOp.run (New "r" "" "t").str,
   EngineOp.inspect (New "r" "" "t").str,
   EngineOp.pull (New "r" "b" "t").str, EngineOp.run (New "r" "b" "t").str,
   EngineOp.inspect (New "r" "b" "t").str]

theorem string_data_append (a b : String) : (a ++ b).data = a.data ++ b.data := rfl

theorem string_eq_of_data {a b : String} (h : a.data = b.data) : a = b := by
  cases a; cases b; exact congrArg String.mk h

theorem dropWhile_idem {α : Type} (p : α → Bool) (l : List α) :
    (l.dropWhile p).dropWhile p = l.dropWhile p := by
  induction l with
  | nil => rfl
  | cons a l ih =>
    cases hpa : p a with
    | true => simp [List.dropWhile_cons, hpa, ih]
    | false => simp [List.dropWhile_cons, hpa]

theorem dropWhile_append_last {α : Type} {p : α → Bool} {a : α} (h : p a = false)
    (u : List α) : ∃ z, (u ++ [a]).dropWhile p = z ++ [a] := by
  induction u with
  | nil => exact ⟨[], by simp [List.dropWhile_cons, h]⟩
  | cons c u ih =>
    cases hc : p c with
    | true => simpa [List.dropWhile_cons, hc] using ih
    | false => exact ⟨c :: u, by simp [List.dropWhile_cons, hc]⟩

theorem dropWhile_length_le {α : Type} (p : α → Bool) (l : List α) :
    (l.dropWhile p).length ≤ l.length := by
  induction l with
  | nil => simp
  | cons a l ih =>
    cases hpa : p a with
    | true => simp [List.dropWhile_cons, hpa]; omega
    | false => simp [List.dropWhile_cons, hpa]

theorem head_false_of_dropWhile_self {α : Type} {p : α → Bool} {a : α} {l : List α}
    (h : (a :: l).dropWhile p = a :: l) : p a = false := by
  cases hpa : p a with
  | false => rfl
  | true =>
    exfalso
    simp [List.dropWhile_cons, hpa] at h
    have hlen := congrArg List.length h
    have hle := dropWhile_length_le p l
    simp at hlen
    omega

theorem trimSpaceL_idem (l : List Char) : trimSpaceL (trimSpaceL l) = trimSpaceL l := by
  have hX : (l.dropWhile goIsSpace).dropWhile goIsSpace = l.dropWhile goIsSpace :=
    dropWhile_idem _ _
  have hM : (trimSpaceL l).dropWhile goIsSpace = trimSpaceL l := by
    unfold trimSpaceL
    cases hXc : l.dropWhile goIsSpace with
    | nil => simp
    | cons a Y =>
      have ha : goIsSpace a = false := head_false_of_dropWhile_self (hXc ▸ hX)
      obtain ⟨z, hz⟩ := dropWhile_append_last ha Y.reverse
      rw [List.reverse_cons, hz, List.reverse_append]
      simp [List.dropWhile_cons, ha]
  conv_lhs => rw [trimSpaceL, hM]
  rw [trimSpaceL, List.reverse_reverse, dropWhile_idem]

theorem trimSpace_idem (s : String) : trimSpace (trimSpace s) = trimSpace s :=
  congrArg String.mk (trimSpaceL_idem s.data)

theorem foldl_parseStep_fst (l : List String) :
    ∀ acc : String × String × String, (∀ q ∈ l, strHasPre "App-Version: " q = false) →
      (l.foldl parseStep acc).1 = acc.1 := by
  induction l with
  | nil => intro acc _; rfl
  | cons q l ih =>
    intro acc h
    have hq : strHasPre "App-Version: " q = false := h q (by simp)
    rw [List.foldl_cons, ih _ (fun x hx => h x (by simp [hx]))]
    simp [parseStep, hq]

theorem foldl_parseStep_snd (l : List String) :
    ∀ acc : String × String × String, (∀ q ∈ l, strHasPre "Git-Ref: " q = false) →
      (l.foldl parseStep acc).2.1 = acc.2.1 := by
  induction l with
  | nil => intro acc _; rfl
  | cons q l ih =>
    intro acc h
    have hq : strHasPre "Git-Ref: " q = false := h q (by simp)
    rw [List.foldl_cons, ih _ (fun x hx => h x (by simp [hx]))]
    simp [parseStep, hq]

theorem foldl_parseStep_thd (l : List String) :
    ∀ acc : String × String × String, (∀ q ∈ l, strHasPre "Built-By: " q = false) →
      (l.foldl parseStep acc).2.2 = acc.2.2 := by
  induction l with
  | nil => intro acc _; rfl
  | cons q l ih =>
    intro acc h
    have hq : strHasPre "Built-By: " q = false := h q (by simp)
    rw [List.foldl_cons, ih _ (fun x hx => h x (by simp [hx]))]
    simp [parseStep, hq]

theorem foldl_parseStep_trimmed (l : List String) :
    ∀ acc : String × String × String,
      trimSpace acc.1 = acc.1 → trimSpace acc.2.1 = acc.2.1 → trimSpace acc.2.2 = acc.2.2 →
      trimSpace (l.foldl parseStep acc).1 = (l.foldl parseStep acc).1 ∧
      trimSpace (l.foldl parseStep acc).2.1 = (l.foldl parseStep acc).2.1 ∧
      trimSpace (l.foldl parseStep acc).2.2 = (l.foldl parseStep acc).2.2 := by
  induction l with
  | nil => intro acc h1 h2 h3; exact ⟨h1, h2, h3⟩
  | cons q l ih =>
    intro acc h1 h2 h3
    rw [List.foldl_cons]
    refine ih _ ?_ ?_ ?_
    · cases hq : strHasPre "App-Version: " q with
      | true => simp [parseStep, hq, trimSpace_idem]
      | false => simpa [parseStep, hq] using h1
    · cases hq : strHasPre "Git-Ref: " q with
      | true => simp [parseStep, hq, trimSpace_idem]
      | false => simpa [parseStep, hq] using h2
    · cases hq : strHasPre "Built-By: " q with
      | true => simp [parseStep, hq, trimSpace_idem]
      | false => simpa [parseStep, hq] using h3

theorem NewVersionInfo_trimmed (l : List String) (id : String)
    (hid : trimSpace id = id) :
    trimSpace (NewVersionInfo l id).AppVersion = (NewVersionInfo l id).AppVersion ∧
    trimSpace (NewVersionInfo l id).GitRef = (NewVersionInfo l id).GitRef ∧
    trimSpace (NewVersionInfo l id).BuiltBy = (NewVersionInfo l id).BuiltBy ∧
    trimSpace (NewVersionInfo l id).ImageID = (NewVersionInfo l id).ImageID := by
  have h := foldl_parseStep_trimmed l ("", "", "") rfl rfl rfl
  exact ⟨h.1, h.2.1, h.2.2, hid⟩

theorem str_eq (reg img tag : String) :
    (New reg img tag).str = reg ++ "/" ++ img ++ ":" ++ tag := by
  apply string_eq_of_data
  show sprintfS "%s/%s:%s".data [reg, img, tag] = _
  change reg.data ++ ('/' :: (img.data ++ (':' :: (tag.data ++ ([] : List Char))))) = _
  simp [string_data_append, List.append_assoc]

theorem str_inj (registry tag : String) {n1 n2 : String}
    (h : (New registry n1 tag).str = (New registry n2 tag).str) : n1 = n2 := by
  rw [str_eq, str_eq] at h
  have hd := congrArg String.data h
  simp only [string_data_append] at hd
  have h1 := List.append_cancel_right hd
  have h2 := List.append_cancel_right h1
  have h3 := List.append_cancel_left h2
  exact string_eq_of_data h3

theorem processOne_ok_trace (eng : Engine σ E) (registry tag image : String) (s : σ)
    {tr : List EngineOp} {s1 : σ} {v : VersionInfo}
    (h : processOne eng registry tag image s = (tr, s1, Except.ok v)) :
    tr = [EngineOp.pull (New registry image tag).str, EngineOp.run (New registry image tag).str,
          EngineOp.inspect (New registry image tag).str] := by
  dsimp only [processOne] at h
  split at h
  · simp at h
  · split at h
    · simp at h
    · split at h
      · simp at h
      · simp only [Prod.mk.injEq] at h
        exact h.1.symm

theorem assembleGo_nil (eng : Engine σ E) (registry tag : String) (s : σ)
    (m : String → List VersionInfo) :
    assembleGo eng registry tag [] s m = ([], s, Except.ok m) := rfl

theorem assembleGo_cons_error (eng : Engine σ E) (registry tag image : String)
    (rest : List String) (s : σ) (m : String → List VersionInfo)
    {tr1 : List EngineOp} {s1 : σ} {e : E}
    (hp : processOne eng registry tag image s = (tr1, s1, Except.error e)) :
    assembleGo eng registry tag (image :: rest) s m = (tr1, s1, Except.error e) := by
  simp only [assembleGo]
  rw [hp]

theorem assembleGo_cons_ok (eng : Engine σ E) (registry tag image : String)
    (rest : List String) (s : σ) (m : String → List VersionInfo)
    {tr1 : List EngineOp} {s1 : σ} {v : VersionInfo} {trb : List EngineOp} {sb : σ}
    {rb : Except E (String → List VersionInfo)}
    (hp : processOne eng registry tag image s = (tr1, s1, Except.ok v))
    (hres : assembleGo eng registry tag rest s1
        (mapAppend m (New registry image tag).str v) = (trb, sb, rb)) :
    assembleGo eng registry tag (image :: rest) s m = (tr1 ++ trb, sb, rb) := by
  simp only [assembleGo]
  rw [hp]
  dsimp only
  rw [hres]

theorem flatRecords_nil (eng : Engine σ E) (registry tag : String) (s : σ) :
    flatRecords eng registry tag [] s = [] := rfl

theorem flatRecords_cons_error (eng : Engine σ E) (registry tag image : String)
    (rest : List String) (s : σ) {tr1 : List EngineOp} {s1 : σ} {e : E}
    (hp : processOne eng registry tag image s = (tr1, s1, Except.error e)) :
    flatRecords eng registry tag (image :: rest) s = [] := by
  simp only [flatRecords]
  rw [hp]

theorem flatRecords_cons_ok (eng : Engine σ E) (registry tag image : String)
    (rest : List String) (s : σ) {tr1 : List EngineOp} {s1 : σ} {v : VersionInfo}
    (hp : processOne eng registry tag image s = (tr1, s1, Except.ok v)) :
    flatRecords eng registry tag (image :: rest) s
      = ((New registry image tag).str, v) :: flatRecords eng registry tag rest s1 := by
  simp only [flatRecords]
  rw [hp]

theorem allCallsOk_cons_error (eng : Engine σ E) (registry tag image : String)
    (rest : List String) (s : σ) {tr1 : List EngineOp} {s1 : σ} {e : E}
    (hp : processOne eng registry tag image s = (tr1, s1, Except.error e)) :
    allCallsOk eng registry tag (image :: rest) s = false := by
  simp only [allCallsOk]
  rw [hp]

theorem allCallsOk_cons_ok (eng : Engine σ E) (registry tag image : String)
    (rest : List String) (s : σ) {tr1 : List EngineOp} {s1 : σ} {v : VersionInfo}
    (hp : processOne eng registry tag image s = (tr1, s1, Except.ok v)) :
    allCallsOk eng registry tag (image :: rest) s = allCallsOk eng registry tag rest s1 := by
  simp only [allCallsOk]
  rw [hp]

theorem assembleGo_ok_map (eng : Engine σ E) (registry tag : String) (images : List String) :
    ∀ (s0 : σ) (m0 : String → List VersionInfo) (tr : List EngineOp) (s1 : σ)
      (m : String → List VersionInfo),
      assembleGo eng registry tag images s0 m0 = (tr, s1, Except.ok m) →
      ∀ k, m k = m0 k ++ ((flatRecords eng registry tag images s0).filter
          (fun p => p.1 == k)).map Prod.snd := by
  induction images with
  | nil =>
    intro s0 m0 tr s1 m h k
    rw [assembleGo_nil] at h
    simp only [Prod.mk.injEq, Except.ok.injEq] at h
    rw [← h.2.2, flatRecords_nil]
    simp
  | cons image rest ih =>
    intro s0 m0 tr s1 m h k
    rcases hp : processOne eng registry tag image s0 with ⟨tr1, s1a, r1⟩
    cases r1 with
    | error e =>
      rw [assembleGo_cons_error eng registry tag image rest s0 m0 hp] at h
      simp at h
    | ok v =>
      rcases hres : assembleGo eng registry tag rest s1a
          (mapAppend m0 (New registry image tag).str v) with ⟨trb, sb, rb⟩
      rw [assembleGo_cons_ok eng registry tag image rest s0 m0 hp hres] at h
      simp only [Prod.mk.injEq] at h
      obtain ⟨-, -, hrb⟩ := h
      subst hrb
      have hmk := ih s1a (mapAppend m0 (New registry image tag).str v) trb sb m hres k
      rw [flatRecords_cons_ok eng registry tag image rest s0 hp]
      by_cases hk : (New registry image tag).str = k
      · rw [hmk]
        simp [List.filter_cons, hk, mapAppend]
      · rw [hmk]
        simp [List.filter_cons, hk, mapAppend, Ne.symm hk]

theorem flatRecords_keys (eng : Engine σ E) (registry tag : String) (images : List String) :
    ∀ (s0 : σ) (m0 : String → List VersionInfo) (tr : List EngineOp) (s1 : σ)
      (m : String → List VersionInfo),
      assembleGo eng registry tag images s0 m0 = (tr, s1, Except.ok m) →
      (flatRecords eng registry tag images s0).map Prod.fst
        = images.map (fun n => (New registry n tag).str) := by
  induction images with
  | nil => intro s0 m0 tr s1 m _; rfl
  | cons image rest ih =>
    intro s0 m0 tr s1 m h
    rcases hp : processOne eng registry tag image s0 with ⟨tr1, s1a, r1⟩
    cases r1 with
    | error e =>
      rw [assembleGo_cons_error eng registry tag image rest s0 m0 hp] at h
      simp at h
    | ok v =>
      rcases hres : assembleGo eng registry tag rest s1a
          (mapAppend m0 (New registry image tag).str v) with ⟨trb, sb, rb⟩
      rw [assembleGo_cons_ok eng registry tag image rest s0 m0 hp hres] at h
      simp only [Prod.mk.injEq] at h
      obtain ⟨-, -, hrb⟩ := h
      subst hrb
      rw [flatRecords_cons_ok eng registry tag image rest s0 hp]
      simp only [List.map_cons]
      rw [ih s1a _ trb sb m hres]

theorem assembleGo_ok_trace (eng : Engine σ E) (registry tag : String) (images : List String) :
    ∀ (s0 : σ) (m0 : String → List VersionInfo) (tr : List EngineOp) (s1 : σ)
      (m : String → List VersionInfo),
      assembleGo eng registry tag images s0 m0 = (tr, s1, Except.ok m) →
      tr = images.flatMap (fun n =>
        [EngineOp.pull (New registry n tag).str, EngineOp.run (New registry n tag).str,
         EngineOp.inspect (New registry n tag).str]) := by
  induction images with
  | nil =>
    intro s0 m0 tr s1 m h
    rw [assembleGo_nil] at h
    simp only [Prod.mk.injEq] at h
    simp [← h.1]
  | cons image rest ih =>
    intro s0 m0 tr s1 m h
    rcases hp : processOne eng registry tag image s0 with ⟨tr1, s1a, r1⟩
    cases r1 with
    | error e =>
      rw [assembleGo_cons_error eng registry tag image rest s0 m0 hp] at h
      simp at h
    | ok v =>
      rcases hres : assembleGo eng registry tag rest s1a
          (mapAppend m0 (New registry image tag).str v) with ⟨trb, sb, rb⟩
      rw [assembleGo_cons_ok eng registry tag image rest s0 m0 hp hres] at h
      simp only [Prod.mk.injEq] at h
      obtain ⟨htr, -, hrb⟩ := h
      subst hrb
      rw [← htr, processOne_ok_trace eng registry tag image s0 hp,
        ih s1a _ trb sb m hres]
      simp [List.flatMap_cons]

theorem allCallsOk_assembleGo (eng : Engine σ E) (registry tag : String) (images : List String) :
    ∀ (s0 : σ) (m0 : String → List VersionInfo),
      allCallsOk eng registry tag images s0 = true →
      ∃ (tr : List EngineOp) (s1 : σ) (m : String → List VersionInfo),
        assembleGo eng registry tag images s0 m0 = (tr, s1, Except.ok m) := by
  induction images with
  | nil => intro s0 m0 _; exact ⟨[], s0, m0, rfl⟩
  | cons image rest ih =>
    intro s0 m0 h
    rcases hp : processOne eng registry tag image s0 with ⟨tr1, s1a, r1⟩
    cases r1 with
    | error e =>
      rw [allCallsOk_cons_error eng registry tag image rest s0 hp] at h
      exact absurd h (by simp)
    | ok v =>
      rw [allCallsOk_cons_ok eng registry tag image rest s0 hp] at h
      obtain ⟨trb, sb, m, hres⟩ := ih s1a (mapAppend m0 (New registry image tag).str v) h
      exact ⟨tr1 ++ trb, sb, m, assembleGo_cons_ok eng registry tag image rest s0 m0 hp hres⟩

theorem filter_fst_length (l : List (String × VersionInfo)) (k : String) :
    (l.filter (fun p => p.1 == k)).length = (l.map Prod.fst).count k := by
  induction l with
  | nil => rfl
  | cons a l ih =>
    by_cases ha : a.1 = k <;>
      simp [List.filter_cons, List.count_cons, ha, ih, beq_iff_eq]

theorem count_map_str (images : List String) (registry tag name : String) :
    (images.map (fun n => (New registry n tag).str)).count (New registry name tag).str
      = images.count name := by
  induction images with
  | nil => rfl
  | cons a l ih =>
    by_cases ha : a = name
    · subst ha
      simp [List.count_cons, ih]
    · have hne : (New registry name tag).str ≠ (New registry a tag).str :=
        fun hc => ha (str_inj registry tag hc).symm
      simp [List.count_cons, ih, beq_iff_eq, hne]
      exact ha

theorem assembleGo_failAt (eng : Engine σ E) (registry tag : String) (pre : List String)
    (bad : String) (post : List String) :
    ∀ (s0 : σ) (m0 : String → List VersionInfo) (tr1 : List EngineOp) (s1 : σ)
      (m1 : String → List VersionInfo) (tr2 : List EngineOp) (s2 : σ) (e : E),
      assembleGo eng registry tag pre s0 m0 = (tr1, s1, Except.ok m1) →
      processOne eng registry tag bad s1 = (tr2, s2, Except.error e) →
      assembleGo eng registry tag (pre ++ bad :: post) s0 m0
        = (tr1 ++ tr2, s2, Except.error e) := by
  induction pre with
  | nil =>
    intro s0 m0 tr1 s1 m1 tr2 s2 e h1 h2
    rw [assembleGo_nil] at h1
    simp only [Prod.mk.injEq, Except.ok.injEq] at h1
    obtain ⟨h1a, h1b, -⟩ := h1
    subst h1a
    subst h1b
    simp only [List.nil_append]
    exact assembleGo_cons_error eng registry tag bad post s0 m0 h2
  | cons a pre ih =>
    intro s0 m0 tr1 s1 m1 tr2 s2 e h1 h2
    rcases hp : processOne eng registry tag a s0 with ⟨tra, sa, ra⟩
    cases ra with
    | error e1 =>
      rw [assembleGo_cons_error eng registry tag a pre s0 m0 hp] at h1
      simp at h1
    | ok v =>
      rcases hres : assembleGo eng registry tag pre sa
          (mapAppend m0 (New registry a tag).str v) with ⟨trb, sb, rb⟩
      rw [assembleGo_cons_ok eng registry tag a pre s0 m0 hp hres] at h1
      simp only [Prod.mk.injEq] at h1
      obtain ⟨htr, hs, hrb⟩ := h1
      subst hrb
      rw [← hs] at h2
      have hrest := ih sa (mapAppend m0 (New registry a tag).str v) trb sb m1 tr2 s2 e hres h2
      rw [List.cons_append]
      rw [assembleGo_cons_ok eng registry tag a (pre ++ bad :: post) s0 m0 hp hrest]
      rw [← htr, List.append_assoc]

/-- C1: if every per-image pull, run and inspect call succeeds, the run
produces a document whose key set is exactly the set of canonical strings
of the input names (duplicates collapsing into one key), each key's
sequence length is the number of occurrences of that name in the input,
and the records under each key are exactly the records of that key from
the global processing-order list `flatRecords`, in order. -/
theorem C1 (eng : Engine σ E) (registry tag : String) (images : List String) (s0 : σ)
    (h : allCallsOk eng registry tag images s0 = true) :
    ∃ (tr : List EngineOp) (s1 : σ) (m : String → List VersionInfo),
      assembleGo eng registry tag images s0 (fun _ => []) = (tr, s1, Except.ok m) ∧
      (∀ k, m k ≠ [] ↔ k ∈ images.map (fun n => (New registry n tag).str)) ∧
      (∀ name, (m (New registry name tag).str).length = images.count name) ∧
      (∀ k, m k = ((flatRecords eng registry tag images s0).filter
          (fun p => p.1 == k)).map Prod.snd) := by
  obtain ⟨tr, s1, m, hrun⟩ := allCallsOk_assembleGo eng registry tag images s0 (fun _ => []) h
  have hmap := assembleGo_ok_map eng registry tag images s0 (fun _ => []) tr s1 m hrun
  have hkeys := flatRecords_keys eng registry tag images s0 (fun _ => []) tr s1 m hrun
  refine ⟨tr, s1, m, hrun, ?_, ?_, ?_⟩
  · intro k
    have hk := hmap k
    simp only [List.nil_append] at hk
    rw [hk, ← hkeys]
    simp [List.mem_map, List.filter_eq_nil_iff, beq_iff_eq]
  · intro name
    have hk := hmap (New registry name tag).str
    simp only [List.nil_append] at hk
    rw [hk, List.length_map, filter_fst_length, hkeys, count_map_str]
  · intro k
    simpa using hmap k

/-- C1 witness: a concrete run of three image names with a duplicate on an
all-succeeding engine. -/
theorem C1_w :
    allCallsOk okEngine "reg" "tg" ["a", "b", "a"] () = true ∧
    ∃ (tr : List EngineOp) (s1 : Unit) (m : String → List VersionInfo),
      assembleGo okEngine "reg" "tg" ["a", "b", "a"] () (fun _ => []) = (tr, s1, Except.ok m) ∧
      (∀ k, m k ≠ [] ↔ k ∈ (["a", "b", "a"] : List String).map (fun n => (New "reg" n "tg").str)) ∧
      (∀ name, (m (New "reg" name "tg").str).length = (["a", "b", "a"] : List String).count name) ∧
      (∀ k, m k = ((flatRecords okEngine "reg" "tg" ["a", "b", "a"] ()).filter
          (fun p => p.1 == k)).map Prod.snd) :=
  ⟨by decide, C1 okEngine "reg" "tg" ["a", "b", "a"] () (by decide)⟩

/-- C2: if the images before `bad` all succeed and a pull, run or inspect
call of `bad` fails, the whole assembly returns that error: no document is
produced (and `runMain` is fatal, writing nothing), the partial aggregate
is not returned, and the recorded docker invocations stop with `bad` — no
image of `post` is touched. -/
theorem C2 (eng : Engine σ E) (imgsF outfF registry tag : String)
    (dropFiles : List (String × String)) (pre : List String) (bad : String)
    (post : List String) (s0 s1 s2 : σ) (m1 : String → List VersionInfo)
    (tr1 tr2 : List EngineOp) (e : E)
    (h1 : assembleGo eng registry tag pre s0 (fun _ => []) = (tr1, s1, Except.ok m1))
    (h2 : processOne eng registry tag bad s1 = (tr2, s2, Except.error e))
    (hi : imgsF ≠ "") (hr : registry ≠ "") (ht : tag ≠ "") (ho : outfF ≠ "") :
    assembleGo eng registry tag (pre ++ bad :: post) s0 (fun _ => [])
        = (tr1 ++ tr2, s2, Except.error e) ∧
    runMain imgsF registry tag outfF (Except.ok (pre ++ bad :: post))
        (Except.ok dropFiles) eng s0 = (tr1 ++ tr2, MainOutcome.fatal) := by
  have hfail := assembleGo_failAt eng registry tag pre bad post s0 (fun _ => [])
    tr1 s1 m1 tr2 s2 e h1 h2
  refine ⟨hfail, ?_⟩
  unfold runMain
  rw [if_neg hi, if_neg hr, if_neg ht, if_neg ho]
  dsimp only
  rw [hfail]

/-- C2 witness: `failEngine` fails the pull of image `b`; on the list
`["a", "b", "c"]` the run aborts after the failed pull of `b` and the
image `c` is never touched. -/
theorem C2_w :
    assembleGo failEngine "r" "t" (["a"] ++ "b" :: ["c"]) () (fun _ => [])
        = (trAW ++ [EngineOp.pull (New "r" "b" "t").str], (), Except.error "pull failed") ∧
    runMain "x" "r" "t" "y" (Except.ok (["a"] ++ "b" :: ["c"])) (Except.ok [])
        failEngine () = (trAW ++ [EngineOp.pull (New "r" "b" "t").str], MainOutcome.fatal) :=
  C2 failEngine "x" "y" "r" "t" [] ["a"] "b" ["c"] () () () mAW trAW
    [EngineOp.pull (New "r" "b" "t").str] "pull failed" rfl rfl
    (by decide) (by decide) (by decide) (by decide)

/-- C3: evaluation of the code at the failing input.  The claim says the
stored value is the remainder of the line after the recognized marker, for
every remainder; but the code uses the character-set trim `strings.TrimLeft`,
so on the line `App-Version: release-1` it stores `lease-1`, not the
remainder `release-1` (the leading `r` and `e` belong to the trim set). -/
theorem C3_cx : NewVersionInfo ["App-Version: release-1"] "sha:1"
    = { AppVersion := "lease-1", GitRef := "", BuiltBy := "", ImageID := "sha:1" }
    ∧ ("lease-1" : String) ≠ "release-1" := by
  constructor
  · rfl
  · decide

/-- C4: on the documented three-line run output the extractor yields
`1.2.3` / `abcdef` / `ci`, with the identifier taken from the separately
supplied inspect result; and for every run output the identifier field is
exactly the supplied inspect result, never parsed from the text. -/
theorem C4 :
    (∀ id : String,
      NewVersionInfo (ReadLines "App-Version: 1.2.3\nGit-Ref: abcdef\nBuilt-By: ci\n") id
        = { AppVersion := "1.2.3", GitRef := "abcdef", BuiltBy := "ci", ImageID := id })
    ∧ ∀ out id : String, (NewVersionInfo (ReadLines out) id).ImageID = id := by
  constructor
  · intro id; rfl
  · intro out id; rfl

/-- C5: last write wins — if a line carrying a recognized marker is
followed only by lines without that marker, the corresponding field holds
the value extracted from that line, whatever matching lines came before. -/
theorem C5 (l1 l2 : List String) (p imageID : String) :
    (strHasPre "App-Version: " p = true →
      (∀ q ∈ l2, strHasPre "App-Version: " q = false) →
      (NewVersionInfo (l1 ++ p :: l2) imageID).AppVersion
        = trimSpace (goTrimLeft p "App-Version: ")) ∧
    (strHasPre "Git-Ref: " p = true →
      (∀ q ∈ l2, strHasPre "Git-Ref: " q = false) →
      (NewVersionInfo (l1 ++ p :: l2) imageID).GitRef
        = trimSpace (goTrimLeft p "Git-Ref: ")) ∧
    (strHasPre "Built-By: " p = true →
      (∀ q ∈ l2, strHasPre "Built-By: " q = false) →
      (NewVersionInfo (l1 ++ p :: l2) imageID).BuiltBy
        = trimSpace (goTrimLeft p "Built-By: ")) := by
  refine ⟨fun hp h2 => ?_, fun hp h2 => ?_, fun hp h2 => ?_⟩
  · show ((l1 ++ p :: l2).foldl parseStep ("", "", "")).1 = _
    rw [List.foldl_append, List.foldl_cons, foldl_parseStep_fst _ _ h2]
    simp [parseStep, hp]
  · show ((l1 ++ p :: l2).foldl parseStep ("", "", "")).2.1 = _
    rw [List.foldl_append, List.foldl_cons, foldl_parseStep_snd _ _ h2]
    simp [parseStep, hp]
  · show ((l1 ++ p :: l2).foldl parseStep ("", "", "")).2.2 = _
    rw [List.foldl_append, List.foldl_cons, foldl_parseStep_thd _ _ h2]
    simp [parseStep, hp]

/-- C5 witness: duplicated markers on one concrete line list, one instance
per recognized marker. -/
theorem C5_w :
    (NewVersionInfo (["App-Version: 1"] ++ "App-Version: 2" :: ["Git-Ref: g2", "Built-By: b2"]) "x").AppVersion
      = trimSpace (goTrimLeft "App-Version: 2" "App-Version: ") ∧
    (NewVersionInfo (["App-Version: 1", "App-Version: 2", "Git-Ref: g1"] ++ "Git-Ref: g2" :: ["Built-By: b2"]) "x").GitRef
      = trimSpace (goTrimLeft "Git-Ref: g2" "Git-Ref: ") ∧
    (NewVersionInfo (["Built-By: b1"] ++ "Built-By: b2" :: []) "x").BuiltBy
      = trimSpace (goTrimLeft "Built-By: b2" "Built-By: ") :=
  ⟨(C5 ["App-Version: 1"] ["Git-Ref: g2", "Built-By: b2"] "App-Version: 2" "x").1
      (by decide) (by decide),
   (C5 ["App-Version: 1", "App-Version: 2", "Git-Ref: g1"] ["Built-By: b2"] "Git-Ref: g2" "x").2.1
      (by decide) (by decide),
   (C5 ["Built-By: b1"] [] "Built-By: b2" "x").2.2 (by decide) (by decide)⟩

/-- C6: the extractor is total — it is a total function that always yields
a record whose identifier is the supplied one — and every field whose
recognized marker occurs on no line is the empty string. -/
theorem C6 (parsefrom : List String) (imageID : String) :
    (NewVersionInfo parsefrom imageID).ImageID = imageID ∧
    ((∀ q ∈ parsefrom, strHasPre "App-Version: " q = false) →
      (NewVersionInfo parsefrom imageID).AppVersion = "") ∧
    ((∀ q ∈ parsefrom, strHasPre "Git-Ref: " q = false) →
      (NewVersionInfo parsefrom imageID).GitRef = "") ∧
    ((∀ q ∈ parsefrom, strHasPre "Built-By: " q = false) →
      (NewVersionInfo parsefrom imageID).BuiltBy = "") := by
  refine ⟨rfl, fun h => ?_, fun h => ?_, fun h => ?_⟩
  · exact foldl_parseStep_fst parsefrom ("", "", "") h
  · exact foldl_parseStep_snd parsefrom ("", "", "") h
  · exact foldl_parseStep_thd parsefrom ("", "", "") h

/-- C6 witness: a concrete line list without any recognized marker. -/
theorem C6_w :
    (NewVersionInfo ["hello", "World: x"] "id7").ImageID = "id7" ∧
    (NewVersionInfo ["hello", "World: x"] "id7").AppVersion = "" ∧
    (NewVersionInfo ["hello", "World: x"] "id7").GitRef = "" ∧
    (NewVersionInfo ["hello", "World: x"] "id7").BuiltBy = "" :=
  ⟨(C6 ["hello", "World: x"] "id7").1,
   (C6 ["hello", "World: x"] "id7").2.1 (by decide),
   (C6 ["hello", "World: x"] "id7").2.2.1 (by decide),
   (C6 ["hello", "World: x"] "id7").2.2.2 (by decide)⟩

/-- C7: for all three field strings, the canonical string of the image
specifier is exactly the concatenation `registry/name:tag`; being a plain
function of the three fields, it is deterministic and side-effect-free. -/
theorem C7 (registry name tag : String) :
    (New registry name tag).str = registry ++ "/" ++ name ++ ":" ++ tag :=
  str_eq registry name tag

/-- C8: if any of the four required flags is empty, or reading the image
list or the file-inclusion list fails, `main` is fatal with an empty
docker-invocation trace — no pull, run or inspect is ever attempted. -/
theorem C8 (imgsF regF tagF outfF : String) (readImagesRes : Except String (List String))
    (readFilesRes : Except String (List (String × String))) (eng : Engine σ E) (s0 : σ)
    (h : imgsF = "" ∨ regF = "" ∨ tagF = "" ∨ outfF = "" ∨
         readImagesRes.isOk = false ∨ readFilesRes.isOk = false) :
    runMain imgsF regF tagF outfF readImagesRes readFilesRes eng s0
      = ([], MainOutcome.fatal) := by
  unfold runMain
  by_cases h1 : imgsF = ""
  · rw [if_pos h1]
  · rw [if_neg h1]
    by_cases h2 : regF = ""
    · rw [if_pos h2]
    · rw [if_neg h2]
      by_cases h3 : tagF = ""
      · rw [if_pos h3]
      · rw [if_neg h3]
        by_cases h4 : outfF = ""
        · rw [if_pos h4]
        · rw [if_neg h4]
          rcases readImagesRes with eI | images
          · rfl
          · rcases readFilesRes with eF | dropFiles
            · rfl
            · exfalso
              rcases h with h | h | h | h | h | h
              exacts [h1 h, h2 h, h3 h, h4 h,
                by simp [Except.isOk, Except.toBool] at h,
                by simp [Except.isOk, Except.toBool] at h]

/-- C8 witness: the images flag is empty, so even with an all-succeeding
engine no docker invocation is recorded and the run is fatal. -/
theorem C8_w :
    (("" : String) = "" ∨ ("r" : String) = "" ∨ ("t" : String) = "" ∨ ("o" : String) = "" ∨
      (Except.ok ([] : List String) : Except String (List String)).isOk = false ∨
      (Except.ok ([] : List (String × String)) : Except String (List (String × String))).isOk = false) ∧
    runMain "" "r" "t" "o" (Except.ok []) (Except.ok []) okEngine () = ([], MainOutcome.fatal) :=
  ⟨Or.inl rfl, C8 "" "r" "t" "o" (Except.ok []) (Except.ok []) okEngine () (Or.inl rfl)⟩

/-- C9 counterexample: the claim says only the non-empty lines of the image
list become processed names, with no entry for a blank line; but
`ReadLines "a\n\nb"` is `["a", "", "b"]` (the blank line is kept as the
empty name), and a run over that list performs a docker pull for the
canonical string of the empty name. -/
theorem C9_cex :
    ReadLines "a\n\nb" = ["a", "", "b"] ∧
    EngineOp.pull (New "r" "" "t").str
      ∈ (assembleGo okEngine "r" "t" (ReadLines "a\n\nb") () (fun _ => [])).1 := by
  refine ⟨by decide, ?_⟩
  decide

/-- C9 amended: the sequence of image names the assembler processes is
exactly the sequence of ALL scanned lines of the image-list content, in
file order, each taken verbatim — including empty lines, which are
processed as empty image names: on a successful run the docker invocations
are precisely a pull, run and inspect of the canonical string of each
scanned line, in order. -/
theorem C9_amend (eng : Engine σ E) (registry tag content : String) (s0 : σ)
    (tr : List EngineOp) (s1 : σ) (m : String → List VersionInfo)
    (h : assembleGo eng registry tag (ReadLines content) s0 (fun _ => [])
      = (tr, s1, Except.ok m)) :
    tr = (ReadLines content).flatMap (fun n =>
      [EngineOp.pull (New registry n tag).str, EngineOp.run (New registry n tag).str,
       EngineOp.inspect (New registry n tag).str]) :=
  assembleGo_ok_trace eng registry tag (ReadLines content) s0 (fun _ => []) tr s1 m h

/-- C9 amended, witness: the content `"a\n\nb"` with a blank middle line,
on an all-succeeding engine. -/
theorem C9_amend_w :
    assembleGo okEngine "r" "t" (ReadLines "a\n\nb") () (fun _ => [])
      = (trC9W, (), Except.ok mC9W) ∧
    trC9W = (ReadLines "a\n\nb").flatMap (fun n =>
      [EngineOp.pull (New "r" n "t").str, EngineOp.run (New "r" n "t").str,
       EngineOp.inspect (New "r" n "t").str]) := by
  have h : assembleGo okEngine "r" "t" (ReadLines "a\n\nb") () (fun _ => [])
      = (trC9W, (), Except.ok mC9W) := rfl
  exact ⟨h, C9_amend okEngine "r" "t" "a\n\nb" () trC9W () mC9W h⟩

/-- C10: every record produced by a successful per-image processing step
has all four fields free of leading and trailing whitespace — the three
parsed fields are trimmed during extraction and the identifier is the
trimmed inspect output. -/
theorem C10 (eng : Engine σ E) (registry tag image : String) (s : σ)
    (tr : List EngineOp) (s1 : σ) (v : VersionInfo)
    (h : processOne eng registry tag image s = (tr, s1, Except.ok v)) :
    trimSpace v.AppVersion = v.AppVersion ∧ trimSpace v.GitRef = v.GitRef ∧
    trimSpace v.BuiltBy = v.BuiltBy ∧ trimSpace v.ImageID = v.ImageID := by
  dsimp only [processOne] at h
  split at h
  · simp at h
  · split at h
    · simp at h
    · split at h
      · simp at h
      · simp only [Prod.mk.injEq, Except.ok.injEq] at h
        obtain ⟨-, -, hv⟩ := h
        subst hv
        exact NewVersionInfo_trimmed _ _ (trimSpace_idem _)

/-- C10 witness: one successful image on `okEngine`, whose inspect output
carries surrounding whitespace. -/
theorem C10_w :
    processOne okEngine "r" "t" "a" () = (trAW, (), Except.ok vOkW) ∧
    (trimSpace vOkW.AppVersion = vOkW.AppVersion ∧ trimSpace vOkW.GitRef = vOkW.GitRef ∧
     trimSpace vOkW.BuiltBy = vOkW.BuiltBy ∧ trimSpace vOkW.ImageID = vOkW.ImageID) :=
  ⟨rfl, C10 okEngine "r" "t" "a" () trAW () vOkW rfl⟩

end Fester
